import Mathlib

/-!
Verification of the memory-mapping core of python-haystack against its
natural-language specification.

Shallow embedding conventions:
- Python unbounded integers are `Nat` where the source keeps them non-negative
  and `Int` where the source tests for negativity (`vtop`).
- Byte contents are `List Nat`; an unbounded byte source (a live address
  space, as read by `ctypes.string_at` or a file) is `Nat → Nat`.
- A Python function that can raise is `Except PyError`.
- File names are abstract identifiers (`Nat`); a file system is a map from
  names to contents.
-/

/-- Python exceptions raised by the embedded code. `nameError n` stands for
a NameError on the unbound identifier abstracted by the tag `n`. -/
inductive PyError where
  | valueError : PyError
  | nameErrorCtypes : PyError
  | nameErrorLstlen : PyError
  deriving DecidableEq

/-- Mirror of `haystack.mappings.base.MemoryMapping` metadata: `start`, `end`
(here `end_`, since `end` is reserved), the file `offset` field, and the bytes
of the region (used by `search`). -/
structure MemoryMapping where
  start : Nat
  end_ : Nat
  offset : Nat
  content : List Nat
  deriving DecidableEq

/-- Mirror of `MemoryMapping.__len__`: `int(self.end - self.start)`. -/
def MemoryMapping.len (m : MemoryMapping) : Nat :=
  m.end_ - m.start

/-- Mirror of `MemoryMapping.__contains__`: `self.start <= address < self.end`. -/
def MemoryMapping.containsAddr (m : MemoryMapping) (address : Nat) : Bool :=
  decide (m.start ≤ address) && decide (address < m.end_)

/-- Mirror of `MemoryMapping.vtop`: `ret = vaddr - self.start`, raising
ValueError when `ret < 0 or ret > len(self)`. -/
def MemoryMapping.vtop (m : MemoryMapping) (vaddr : Int) : Except PyError Int :=
  let ret : Int := vaddr - (m.start : Int)
  if ret < 0 ∨ ret > (m.len : Int) then .error .valueError else .ok ret

/-- Mirror of `MemoryMapping.ptov`: `pstart = self.vtop(self.start);
vaddr = paddr - pstart`. The exception of the inner `vtop` propagates. -/
def MemoryMapping.ptov (m : MemoryMapping) (paddr : Int) : Except PyError Int :=
  match m.vtop (m.start : Int) with
  | .error e => .error e
  | .ok pstart => .ok (paddr - pstart)

/-- Mirror of `Mappings.get_mapping_for_address`: linear scan, first mapping
containing the address; the source returns `False` when none does, embedded
as `none`. -/
def Mappings.get_mapping_for_address (mappings : List MemoryMapping) (vaddr : Nat) :
    Option MemoryMapping :=
  mappings.find? (fun m => m.containsAddr vaddr)

/-- Mirror of `Mappings.__contains__`. -/
def Mappings.containsAddr (mappings : List MemoryMapping) (vaddr : Nat) : Bool :=
  mappings.any (fun m => m.containsAddr vaddr)

/-- Mirror of `Mappings.is_valid_address_value`: resolve the address, and when
a structure type of size `s` is supplied, return `False` (here `none`) when
`addr + s < m.start or addr + s > m.end`. -/
def Mappings.is_valid_address_value (mappings : List MemoryMapping) (addr : Nat)
    (structSize : Option Nat) : Option MemoryMapping :=
  match Mappings.get_mapping_for_address mappings addr with
  | some m =>
    match structSize with
    | some s => if addr + s < m.start ∨ addr + s > m.end_ then none else some m
    | none => some m
  | none => none

/-- Mirror of `Mappings.is_valid_address`: `False` on a null pointee address,
otherwise `is_valid_address_value`. The pointee address of the object is
already extracted (`utils.get_pointee_address`). -/
def Mappings.is_valid_address (mappings : List MemoryMapping) (addr : Nat)
    (structSize : Option Nat) : Option MemoryMapping :=
  if addr = 0 then none else Mappings.is_valid_address_value mappings addr structSize

/-- Two mappings occupy disjoint address ranges; the AddressSpace invariant
of the spec (regions of a real process map do not overlap). -/
def MMDisjoint (m1 m2 : MemoryMapping) : Prop :=
  m1.end_ ≤ m2.start ∨ m2.end_ ≤ m1.start

/-- The reference book of `haystack.mappings.base._book`: the dict
`refs : (type, address) → object` is embedded as an insertion-ordered list of
key-value pairs with unique keys. Types and objects are abstract `Nat` tags. -/
structure Book where
  refs : List ((Nat × Nat) × Nat)
  deriving DecidableEq

/-- Membership test `(typ, origAddr) in self.__book.refs`. -/
def Book.hasKey (b : Book) (typ addr : Nat) : Bool :=
  b.refs.any (fun e => e.1 = (typ, addr))

/-- Mirror of `_book.addRef`: `self.refs[(typ, addr)] = obj` (the key is
absent whenever the source calls this from `keepRef`). -/
def Book.addRef (b : Book) (obj typ addr : Nat) : Book :=
  ⟨b.refs ++ [((typ, addr), obj)]⟩

/-- Dict lookup `self.refs[(typ, addr)]`. -/
def Book.lookupRef (b : Book) (typ addr : Nat) : Option Nat :=
  (b.refs.find? (fun e => e.1 = (typ, addr))).map (fun e => e.2)

/-- Mirror of `Mappings.keepRef`: insert only when the key is absent; when it
is already present the call only logs and returns (a silent no-op). -/
def Mappings.keepRef (b : Book) (obj typ addr : Nat) : Book :=
  if b.hasKey typ addr then b else b.addRef obj typ addr

/-- Mirror of `Mappings.getRef`: the cached object when present, else `None`. -/
def Mappings.getRef (b : Book) (typ addr : Nat) : Option Nat :=
  if b.hasKey typ addr then b.lookupRef typ addr else none

/-- Mirror of `Mappings.getRefByAddr`: every `(typ, origAddr, obj)` entry of
the book whose address is `addr`. -/
def Mappings.getRefByAddr (b : Book) (addr : Nat) : List (Nat × Nat × Nat) :=
  b.refs.filterMap (fun e => if e.1.2 = addr then some (e.1.1, e.1.2, e.2) else none)

/-- Claim C9: `vtop` and `ptov` are claimed mutually inverse; the code
computes `ptov(paddr) = paddr - vtop(start) = paddr - 0`, never adding
`start` back. Evaluated at the failing input: region `[0x1000, 0x2000)` and
address `0x1500`, `vtop` gives offset `0x500` and `ptov` returns `0x500`
unchanged instead of `0x1500`. -/
theorem ptov_vtop_not_inverse :
    let m : MemoryMapping := ⟨0x1000, 0x2000, 0, []⟩
    m.vtop 0x1500 = .ok 0x500 ∧ m.ptov 0x500 = .ok 0x500 ∧ (0x500 : Int) ≠ 0x1500 := by
  refine ⟨by rfl, by rfl, by decide⟩

/-- Claim C4: address validation. The null address is rejected; an address no
mapping contains is rejected; with a structure size `s`, an address whose
structure would overflow past the end of its mapping (`addr + s > m.end`) is
rejected; otherwise the containing mapping is returned. -/
theorem is_valid_address_spec (ms : List MemoryMapping) (t : Option Nat) (a : Nat)
    (m : MemoryMapping) (s : Nat) :
    Mappings.is_valid_address ms 0 t = none
    ∧ ((∀ m2 ∈ ms, m2.containsAddr a = false) →
        Mappings.is_valid_address_value ms a t = none)
    ∧ (Mappings.get_mapping_for_address ms a = some m → a + s > m.end_ →
        Mappings.is_valid_address_value ms a (some s) = none)
    ∧ (Mappings.get_mapping_for_address ms a = some m → a + s ≤ m.end_ →
        Mappings.is_valid_address_value ms a (some s) = some m)
    ∧ (Mappings.get_mapping_for_address ms a = some m →
        Mappings.is_valid_address_value ms a none = some m) := by
  refine ⟨by simp [Mappings.is_valid_address], ?_, ?_, ?_, ?_⟩
  · intro h
    have hfind : Mappings.get_mapping_for_address ms a = none := by
      simp only [Mappings.get_mapping_for_address, List.find?_eq_none]
      intro x hx
      simp [h x hx]
    simp [Mappings.is_valid_address_value, hfind]
  · intro hfind hover
    simp [Mappings.is_valid_address_value, hfind, if_pos (Or.inr hover)]
  · intro hfind hle
    have hfind2 : ms.find? (fun m2 => m2.containsAddr a) = some m := hfind
    have hcont : m.containsAddr a = true := by
      have h := List.find?_some hfind2
      simpa using h
    have hstart : m.start ≤ a := by
      simp only [MemoryMapping.containsAddr, Bool.and_eq_true, decide_eq_true_eq] at hcont
      exact hcont.1
    have hcond : ¬(a + s < m.start ∨ a + s > m.end_) := by omega
    simp [Mappings.is_valid_address_value, hfind, if_neg hcond]
  · intro hfind
    simp [Mappings.is_valid_address_value, hfind]

/-- Witness for claim C4 at a concrete address space with one mapping
`[0x1000, 0x2000)`: the null check, the overflow rejection at `0x1ff0` with
size `0x20`, and the accepting case at `0x1500` with size `0x10`. -/
theorem is_valid_address_spec_witness :
    Mappings.is_valid_address [⟨0x1000, 0x2000, 0, []⟩] 0 none = none
    ∧ Mappings.is_valid_address_value [⟨0x1000, 0x2000, 0, []⟩] 0x1ff0 (some 0x20) = none
    ∧ Mappings.is_valid_address_value [⟨0x1000, 0x2000, 0, []⟩] 0x1500 (some 0x10) =
        some ⟨0x1000, 0x2000, 0, []⟩ := by
  refine ⟨(is_valid_address_spec [⟨0x1000, 0x2000, 0, []⟩] none 0 ⟨0x1000, 0x2000, 0, []⟩ 0).1,
    (is_valid_address_spec [⟨0x1000, 0x2000, 0, []⟩] (some 0x20) 0x1ff0
      ⟨0x1000, 0x2000, 0, []⟩ 0x20).2.2.1 (by rfl) (by decide),
    (is_valid_address_spec [⟨0x1000, 0x2000, 0, []⟩] (some 0x10) 0x1500
      ⟨0x1000, 0x2000, 0, []⟩ 0x10).2.2.2.1 (by rfl) (by decide)⟩

/-- Claim C5: the reference book. After `keepRef(obj1, T, a)`, a second
`keepRef(obj2, T, a)` leaves the book unchanged (first writer wins) and
`getRef(T, a)` still returns `obj1`; after an additional `keepRef(obj3, U, a)`
with `U` a distinct type, `getRefByAddr(a)` holds exactly two entries, one
per type. The book is assumed to hold no prior entry at address `a`. -/
theorem keepRef_first_writer_wins (b : Book) (T U a o1 o2 o3 : Nat) (hTU : T ≠ U)
    (hempty : Mappings.getRefByAddr b a = []) :
    Mappings.keepRef (Mappings.keepRef b o1 T a) o2 T a = Mappings.keepRef b o1 T a
    ∧ Mappings.getRef (Mappings.keepRef (Mappings.keepRef b o1 T a) o2 T a) T a = some o1
    ∧ Mappings.getRefByAddr
        (Mappings.keepRef (Mappings.keepRef (Mappings.keepRef b o1 T a) o2 T a) o3 U a) a
        = [(T, a, o1), (U, a, o3)] := by
  have hnota : ∀ e ∈ b.refs, e.1.2 ≠ a := by
    intro e he heq
    have := (List.filterMap_eq_nil_iff.mp hempty) e he
    simp [heq] at this
  have hkeyT : Book.hasKey b T a = false := by
    simp only [Book.hasKey, List.any_eq_false, decide_eq_true_eq]
    intro e he heq
    exact hnota e he (by simp [heq])
  have h1 : Mappings.keepRef b o1 T a = Book.addRef b o1 T a := by
    simp [Mappings.keepRef, hkeyT]
  have hkeyT1 : Book.hasKey (Book.addRef b o1 T a) T a = true := by
    simp [Book.hasKey, Book.addRef]
  have h2 : Mappings.keepRef (Book.addRef b o1 T a) o2 T a = Book.addRef b o1 T a := by
    simp [Mappings.keepRef, hkeyT1]
  have hfindT : (b.refs).find? (fun e => e.1 = (T, a)) = none := by
    simp only [List.find?_eq_none, decide_eq_true_eq]
    intro e he heq
    exact hnota e he (by simp [heq])
  have hget : Mappings.getRef (Book.addRef b o1 T a) T a = some o1 := by
    simp [Mappings.getRef, Book.hasKey, Book.addRef, Book.lookupRef, hfindT]
  have hkeyU : Book.hasKey (Book.addRef b o1 T a) U a = false := by
    simp only [Book.hasKey, Book.addRef, List.any_append, Bool.or_eq_false_iff]
    constructor
    · simp only [List.any_eq_false, decide_eq_true_eq]
      intro e he heq
      exact hnota e he (by simp [heq])
    · simp [hTU]
  have h3 : Mappings.keepRef (Book.addRef b o1 T a) o3 U a =
      Book.addRef (Book.addRef b o1 T a) o3 U a := by
    simp [Mappings.keepRef, hkeyU]
  have hflat : Mappings.getRefByAddr (Book.addRef (Book.addRef b o1 T a) o3 U a) a =
      [(T, a, o1), (U, a, o3)] := by
    simp only [Mappings.getRefByAddr, Book.addRef, List.append_assoc, List.filterMap_append]
    have : b.refs.filterMap
        (fun e => if e.1.2 = a then some (e.1.1, e.1.2, e.2) else none) = [] := by
      simp only [List.filterMap_eq_nil_iff]
      intro e he
      simp [hnota e he]
    simp [this]
  rw [h1, h2, h3]
  exact ⟨rfl, hget, hflat⟩

/-- Witness for claim C5 starting from the empty book with types 1 and 2,
address 5 and objects 11, 12, 13. -/
theorem keepRef_first_writer_wins_witness :
    (1 : Nat) ≠ 2 ∧ Mappings.getRefByAddr ⟨[]⟩ 5 = []
    ∧ (Mappings.keepRef (Mappings.keepRef ⟨[]⟩ 11 1 5) 12 1 5 = Mappings.keepRef ⟨[]⟩ 11 1 5
      ∧ Mappings.getRef (Mappings.keepRef (Mappings.keepRef ⟨[]⟩ 11 1 5) 12 1 5) 1 5 = some 11
      ∧ Mappings.getRefByAddr
          (Mappings.keepRef (Mappings.keepRef (Mappings.keepRef ⟨[]⟩ 11 1 5) 12 1 5) 13 2 5) 5
          = [(1, 5, 11), (2, 5, 13)]) :=
  ⟨by decide, by rfl, keepRef_first_writer_wins ⟨[]⟩ 1 2 5 11 12 13 (by decide) (by rfl)⟩

/-- In a pairwise-disjoint mapping list, the linear scan of
`get_mapping_for_address` finds exactly the member mapping that contains the
address. -/
theorem find?_eq_of_pairwise_disjoint {a : Nat} {m : MemoryMapping} :
    ∀ {ms : List MemoryMapping}, ms.Pairwise MMDisjoint → m ∈ ms →
      m.containsAddr a = true → ms.find? (fun x => x.containsAddr a) = some m := by
  intro ms
  induction ms with
  | nil => intro _ hm; exact absurd hm (List.not_mem_nil m)
  | cons h t ih =>
    intro hp hm hc
    rcases List.mem_cons.mp hm with heq | ht
    · subst heq
      simp [List.find?_cons, hc]
    · have hdisj : MMDisjoint h m := (List.pairwise_cons.mp hp).1 m ht
      have hhc : h.containsAddr a = false := by
        simp only [MemoryMapping.containsAddr, Bool.and_eq_true, decide_eq_true_eq] at hc
        simp only [MemoryMapping.containsAddr, Bool.and_eq_false_iff, decide_eq_false_iff_not]
        rcases hdisj with hd | hd
        · right; omega
        · left; omega
      rw [List.find?_cons, hhc]
      exact ih (List.pairwise_cons.mp hp).2 ht hc

/-- Claim C6: for every mapping of a pairwise-disjoint address space and every
address `a` with `start <= a < end`, the mapping contains `a` and
`get_mapping_for_address` resolves `a` to that mapping; containment at
`a = end` is false (half-open interval); and resolution returns the sentinel
`none` (the source returns `False`, it never raises) when no mapping
contains the address. -/
theorem contains_resolve_spec (ms : List MemoryMapping) (m : MemoryMapping) (a : Nat)
    (hdisj : ms.Pairwise MMDisjoint) (hm : m ∈ ms) (h1 : m.start ≤ a) (h2 : a < m.end_) :
    m.containsAddr a = true
    ∧ Mappings.get_mapping_for_address ms a = some m
    ∧ m.containsAddr m.end_ = false
    ∧ (∀ ms2 : List MemoryMapping, ∀ b : Nat,
        (∀ m2 ∈ ms2, m2.containsAddr b = false) →
        Mappings.get_mapping_for_address ms2 b = none) := by
  have hc : m.containsAddr a = true := by
    simp [MemoryMapping.containsAddr, h1, h2]
  refine ⟨hc, find?_eq_of_pairwise_disjoint hdisj hm hc, ?_, ?_⟩
  · simp [MemoryMapping.containsAddr]
  · intro ms2 b hnone
    simp only [Mappings.get_mapping_for_address, List.find?_eq_none]
    intro x hx
    simp [hnone x hx]

/-- Witness for claim C6: a two-mapping address space `[0x1000, 0x2000)`,
`[0x3000, 0x4000)` and the address `0x3500` inside the second mapping. -/
theorem contains_resolve_spec_witness :
    MemoryMapping.containsAddr ⟨0x3000, 0x4000, 0, []⟩ 0x3500 = true
    ∧ Mappings.get_mapping_for_address [⟨0x1000, 0x2000, 0, []⟩, ⟨0x3000, 0x4000, 0, []⟩] 0x3500 =
        some ⟨0x3000, 0x4000, 0, []⟩
    ∧ MemoryMapping.containsAddr ⟨0x3000, 0x4000, 0, []⟩ 0x4000 = false
    ∧ (∀ ms2 : List MemoryMapping, ∀ b : Nat,
        (∀ m2 ∈ ms2, m2.containsAddr b = false) →
        Mappings.get_mapping_for_address ms2 b = none) :=
  contains_resolve_spec [⟨0x1000, 0x2000, 0, []⟩, ⟨0x3000, 0x4000, 0, []⟩]
    ⟨0x3000, 0x4000, 0, []⟩ 0x3500
    (by simp [List.pairwise_cons, MMDisjoint]) (by simp) (by decide) (by decide)

/-- The bytes returned by a `readBytes(address, n)` request against an
unbounded byte source, as `LocalMemoryMapping.readBytes` (`ctypes.string_at`)
or `LazyMmap._get` serve it: exactly `n` bytes from `address` on, clipped
neither to a string bound nor to a region end. -/
def readChunk (mem : Nat → Nat) (address n : Nat) : List Nat :=
  (List.range n).map (fun i => mem (address + i))

/-- Result of `MemoryMapping.readCString`: the joined string bytes, the
truncated flag, and the trace of `(address, size)` arguments of the
underlying `readBytes` requests it issued. -/
structure CReadResult where
  value : List Nat
  truncated : Bool
  reads : List (Nat × Nat)
  deriving DecidableEq

/-- Loop of `MemoryMapping.readCString`. State per iteration: `address` is
the current read position and `sizeLeft = max_size - size` the remaining
budget, so the source guard `max_size <= size + chunk_length` is
`sizeLeft <= chunk` and the final clip `data[:max_size - size]` is
`take sizeLeft`. The loop body reads `chunk` bytes, cuts them at the first
NUL when one is present (flag `done`), appends, and either breaks (budget
reached, setting `truncated`, or NUL found) or advances by `chunk`. `fuel`
only bounds the recursion structurally: every iteration consumes `chunk >= 1`
of the budget, so `max_size + 1` iterations are never reached (with
`chunk_length = 0` the source loops forever; that case is not modelled). -/
def readCStringGo (mem : Nat → Nat) (chunk : Nat) : Nat → Nat → Nat → CReadResult
  | 0, _, _ => ⟨[], false, []⟩
  | fuel + 1, address, sizeLeft =>
    let data0 := readChunk mem address chunk
    let done : Bool := decide (0 ∈ data0)
    let data := if done then data0.takeWhile (fun b => decide (b ≠ 0)) else data0
    if sizeLeft ≤ chunk then
      ⟨data.take sizeLeft, true, [(address, chunk)]⟩
    else if done then
      ⟨data, false, [(address, chunk)]⟩
    else
      let r := readCStringGo mem chunk fuel (address + chunk) (sizeLeft - chunk)
      ⟨data ++ r.value, r.truncated, (address, chunk) :: r.reads⟩

/-- Mirror of `MemoryMapping.readCString(address, max_size, chunk_length)`. -/
def MemoryMapping.readCString (mem : Nat → Nat) (address maxSize chunk : Nat) : CReadResult :=
  readCStringGo mem chunk (maxSize + 1) address maxSize

/-- One step of `readChunk`. -/
theorem readChunk_succ (mem : Nat → Nat) (a n : Nat) :
    readChunk mem a (n + 1) = mem a :: readChunk mem (a + 1) n := by
  simp only [readChunk, List.range_succ_eq_map, List.map_cons, List.map_map, Nat.add_zero]
  congr 1
  apply List.map_congr_left
  intro i _
  simp only [Function.comp_apply]
  congr 1
  omega

/-- A zero byte occurs in a chunk read iff the source has a zero in range. -/
theorem zero_mem_readChunk_iff (mem : Nat → Nat) (a n : Nat) :
    0 ∈ readChunk mem a n ↔ ∃ i < n, mem (a + i) = 0 := by
  simp only [readChunk, List.mem_map, List.mem_range]

/-- Cutting a chunk at its first NUL: when the first zero of the source lies
at offset `k` inside the chunk, `data[:data.index(0)]` is the first `k`
bytes. -/
theorem takeWhile_readChunk (mem : Nat → Nat) :
    ∀ (k n a : Nat), k < n → (∀ i < k, mem (a + i) ≠ 0) → mem (a + k) = 0 →
      (readChunk mem a n).takeWhile (fun b => decide (b ≠ 0)) = readChunk mem a k := by
  intro k
  induction k with
  | zero =>
    intro n a hk _ hz
    obtain ⟨m, rfl⟩ : ∃ m, n = m + 1 := ⟨n - 1, by omega⟩
    have h0 : mem a = 0 := by simpa using hz
    rw [readChunk_succ, List.takeWhile_cons]
    simp [h0, readChunk]
  | succ k ih =>
    intro n a hk hfirst hz
    obtain ⟨m, rfl⟩ : ∃ m, n = m + 1 := ⟨n - 1, by omega⟩
    have hhead : mem a ≠ 0 := by simpa using hfirst 0 (by omega)
    have htail : (readChunk mem (a + 1) m).takeWhile (fun b => decide (b ≠ 0)) =
        readChunk mem (a + 1) k := by
      apply ih m (a + 1) (by omega)
      · intro i hi
        have h2 := hfirst (i + 1) (by omega)
        have h3 : a + (i + 1) = a + 1 + i := by omega
        rwa [h3] at h2
      · have h3 : a + (k + 1) = a + 1 + k := by omega
        rwa [h3] at hz
    simp only [decide_not] at htail
    rw [readChunk_succ, readChunk_succ, List.takeWhile_cons]
    simp [hhead, htail]

/-- Splitting a chunk read. -/
theorem readChunk_append (mem : Nat → Nat) (a n p : Nat) :
    readChunk mem a n ++ readChunk mem (a + n) p = readChunk mem a (n + p) := by
  simp only [readChunk, List.range_add, List.map_append, List.map_map]
  congr 1
  apply List.map_congr_left
  intro i _
  simp only [Function.comp_apply]
  congr 1
  omega

/-- Taking a prefix of a chunk read. -/
theorem readChunk_take (mem : Nat → Nat) (a n p : Nat) :
    (readChunk mem a n).take p = readChunk mem a (min p n) := by
  simp only [readChunk]
  rw [← List.map_take, List.take_range]

/-- Characterization of the `readCString` loop: when the first NUL of the
byte source lies `k` bytes past `address`, the returned string is the first
`min k sizeLeft` bytes, and the truncated flag is set iff the budget check
`max_size <= size + chunk_length` fires in the final iteration, i.e. iff
`sizeLeft <= (k / chunk + 1) * chunk`. -/
theorem readCStringGo_spec (mem : Nat → Nat) (chunk : Nat) (hch : 0 < chunk) :
    ∀ fuel sizeLeft address k, sizeLeft < fuel →
      (∀ i < k, mem (address + i) ≠ 0) → mem (address + k) = 0 →
      (readCStringGo mem chunk fuel address sizeLeft).value
          = readChunk mem address (min k sizeLeft)
      ∧ (readCStringGo mem chunk fuel address sizeLeft).truncated
          = decide (sizeLeft ≤ (k / chunk + 1) * chunk) := by
  intro fuel
  induction fuel with
  | zero => intro s a k h; omega
  | succ fuel ih =>
    intro sizeLeft address k hfuel hfirst hz
    by_cases hnul : k < chunk
    · have hdone : decide (0 ∈ readChunk mem address chunk) = true := by
        simp only [decide_eq_true_eq, zero_mem_readChunk_iff]
        exact ⟨k, hnul, hz⟩
      have hdata : (readChunk mem address chunk).takeWhile (fun b => decide (b ≠ 0))
          = readChunk mem address k := takeWhile_readChunk mem k chunk address hnul hfirst hz
      by_cases hcap : sizeLeft ≤ chunk
      · have htr : (sizeLeft ≤ (k / chunk + 1) * chunk) := by
          rw [Nat.succ_mul]; omega
        simp only [readCStringGo, hdone, if_true, hdata, if_pos hcap]
        refine ⟨?_, by simp [htr]⟩
        rw [readChunk_take, Nat.min_comm]
      · have htr : ¬(sizeLeft ≤ (k / chunk + 1) * chunk) := by
          rw [Nat.div_eq_of_lt hnul]; omega
        simp only [readCStringGo, hdone, if_true, hdata, if_neg hcap]
        refine ⟨?_, by simp [htr]⟩
        congr 1
        omega
    · have hdone : decide (0 ∈ readChunk mem address chunk) = false := by
        simp only [decide_eq_false_iff_not, zero_mem_readChunk_iff]
        rintro ⟨i, hi, hzi⟩
        exact hfirst i (by omega) hzi
      by_cases hcap : sizeLeft ≤ chunk
      · have htr : (sizeLeft ≤ (k / chunk + 1) * chunk) := by
          rw [Nat.succ_mul]; omega
        simp only [readCStringGo, hdone, Bool.false_eq_true, if_false, if_pos hcap]
        refine ⟨?_, by simp [htr]⟩
        rw [readChunk_take]
        congr 1
        omega
      · have hfirst2 : ∀ i < k - chunk, mem (address + chunk + i) ≠ 0 := by
          intro i hi
          have h2 := hfirst (chunk + i) (by omega)
          have h3 : address + (chunk + i) = address + chunk + i := by omega
          rwa [h3] at h2
        have hz2 : mem (address + chunk + (k - chunk)) = 0 := by
          have h3 : address + chunk + (k - chunk) = address + k := by omega
          rwa [h3]
        have hrec := ih (sizeLeft - chunk) (address + chunk) (k - chunk)
          (by omega) hfirst2 hz2
        have hdiv : k / chunk = (k - chunk) / chunk + 1 := by
          conv_lhs => rw [show k = (k - chunk) + chunk by omega]
          rw [Nat.add_div_right _ hch]
        simp only [readCStringGo, hdone, Bool.false_eq_true, if_false, if_neg hcap]
        constructor
        · rw [hrec.1, readChunk_append]
          congr 1
          omega
        · rw [hrec.2, hdiv, Nat.succ_mul ((k - chunk) / chunk + 1) chunk]
          rw [decide_eq_decide]
          omega

/-- Claim C2 counterexample: with the first NUL at byte 10 and
`max_size = 100` under the default `chunk_length = 256`, `readCString`
returns the full 10-byte string but `truncated = True`, because the budget
check `max_size <= size + chunk_length` (`100 <= 0 + 256`) fires in the same
iteration that found the NUL; the claim expects `truncated = false`. -/
theorem readCString_truncated_flag_cex :
    (MemoryMapping.readCString (fun i => if i < 10 then 65 else 0) 0 100 256).value
        = List.replicate 10 65
    ∧ (MemoryMapping.readCString (fun i => if i < 10 then 65 else 0) 0 100 256).truncated
        = true := by
  constructor
  · decide
  · decide

/-- Claim C2 (amended): `read_c_string` stops at the first NUL found inside a
chunk or after `max_size` bytes: with the first NUL `k` bytes past `address`,
the returned string is the first `min k max_size` bytes of the source; the
truncated flag however is true iff `max_size <= (k / chunk + 1) * chunk`,
i.e. also when the NUL is found in the final budget-capped chunk (so NUL at
byte 10 with `max_size = 100` gives `truncated = false` only for chunk sizes
below `max_size - chunk` alignment, e.g. `chunk_length = 16`, not for the
default 256; `max_size = 5` with no NUL in the first 5 bytes still returns 5
bytes with `truncated = true`). -/
theorem readCString_spec (mem : Nat → Nat) (address maxSize chunk k : Nat)
    (hch : 0 < chunk) (hfirst : ∀ i < k, mem (address + i) ≠ 0)
    (hz : mem (address + k) = 0) :
    (MemoryMapping.readCString mem address maxSize chunk).value
        = readChunk mem address (min k maxSize)
    ∧ (MemoryMapping.readCString mem address maxSize chunk).truncated
        = decide (maxSize ≤ (k / chunk + 1) * chunk) :=
  readCStringGo_spec mem chunk hch (maxSize + 1) maxSize address k
    (by omega) hfirst hz

/-- Witness for claim C2 (amended), covering the two concrete scenarios of
the claim: first NUL at byte 10, `max_size = 100`, `chunk_length = 16`
returns the 10-byte string with `truncated = false`; and `max_size = 5` with
the NUL beyond the first 5 bytes returns a 5-byte string with
`truncated = true`. -/
theorem readCString_spec_witness :
    ((MemoryMapping.readCString (fun i => if i < 10 then 65 else 0) 0 100 16).value
        = readChunk (fun i => if i < 10 then 65 else 0) 0 (min 10 100)
      ∧ (MemoryMapping.readCString (fun i => if i < 10 then 65 else 0) 0 100 16).truncated
        = decide (100 ≤ (10 / 16 + 1) * 16))
    ∧ ((MemoryMapping.readCString (fun i => if i < 10 then 65 else 0) 0 5 16).value
        = readChunk (fun i => if i < 10 then 65 else 0) 0 (min 10 5)
      ∧ (MemoryMapping.readCString (fun i => if i < 10 then 65 else 0) 0 5 16).truncated
        = decide (5 ≤ (10 / 16 + 1) * 16))
    ∧ decide (100 ≤ (10 / 16 + 1) * 16) = false
    ∧ decide (5 ≤ (10 / 16 + 1) * 16) = true :=
  ⟨readCString_spec (fun i => if i < 10 then 65 else 0) 0 100 16 10 (by decide)
      (by decide) (by decide),
   readCString_spec (fun i => if i < 10 then 65 else 0) 0 5 16 10 (by decide)
      (by decide) (by decide),
   by decide, by decide⟩

/-- Every `readBytes` request of the `readCString` loop asks for exactly
`chunk` bytes. -/
theorem readCStringGo_reads_chunk (mem : Nat → Nat) (chunk : Nat) :
    ∀ fuel address sizeLeft p, p ∈ (readCStringGo mem chunk fuel address sizeLeft).reads →
      p.2 = chunk := by
  intro fuel
  induction fuel with
  | zero => intro a s p hp; simp [readCStringGo] at hp
  | succ fuel ih =>
    intro address sizeLeft p hp
    by_cases hdone : decide (0 ∈ readChunk mem address chunk) = true
    · by_cases hcap : sizeLeft ≤ chunk
      · simp only [readCStringGo, hdone, if_true, if_pos hcap, List.mem_singleton] at hp
        simp [hp]
      · simp only [readCStringGo, hdone, if_true, if_neg hcap, List.mem_singleton] at hp
        simp [hp]
    · have hdone2 : decide (0 ∈ readChunk mem address chunk) = false := by
        simpa using hdone
      by_cases hcap : sizeLeft ≤ chunk
      · simp only [readCStringGo, hdone2, Bool.false_eq_true, if_false, if_pos hcap,
          List.mem_singleton] at hp
        simp [hp]
      · simp only [readCStringGo, hdone2, Bool.false_eq_true, if_false, if_neg hcap,
          List.mem_cons] at hp
        rcases hp with hp | hp
        · simp [hp]
        · exact ih (address + chunk) (sizeLeft - chunk) p hp

/-- Claim C10: every underlying byte read issued by `readCString` requests
exactly `chunk_length` bytes, never clipped to `max_size` or to a region
end; in particular at address `0x10f0` of a region ending at `0x1100` with
`max_size = 8` and the default `chunk_length = 256`, the single request is
`(0x10f0, 256)`, reaching 244 bytes past the region end although the
requested string lies inside it. -/
theorem readCString_requests_chunk (mem : Nat → Nat) (address maxSize chunk : Nat) :
    (∀ p ∈ (MemoryMapping.readCString mem address maxSize chunk).reads, p.2 = chunk)
    ∧ (MemoryMapping.readCString (fun _ => 1) 0x10f0 8 256).reads = [(0x10f0, 256)]
    ∧ 0x1100 < 0x10f0 + 256 ∧ 0x10f0 + 8 ≤ 0x1100 := by
  refine ⟨?_, by decide, by decide, by decide⟩
  intro p hp
  exact readCStringGo_reads_chunk mem chunk (maxSize + 1) address maxSize p hp

/-- Witness for claim C10: the universally quantified part applied to a
concrete read whose request list is `[(0, 7)]`. -/
theorem readCString_requests_chunk_witness :
    ((0 : Nat), (7 : Nat)).2 = 7 :=
  (readCString_requests_chunk (fun _ => 2) 0 5 7).1 (0, 7) (by decide)

/-- Mirror of the Python substring search `data.find(bytestr)`: the first
index at which `pat` occurs in `data`, or `none`. -/
def findSub (pat : List Nat) : List Nat → Option Nat
  | [] => if pat.isPrefixOf ([] : List Nat) then some 0 else none
  | d :: tl =>
    if pat.isPrefixOf (d :: tl) then some 0
    else (findSub pat tl).map (fun i => i + 1)

/-- A hit of `findSub` is an occurrence. -/
theorem findSub_some_isPrefixOf (pat : List Nat) :
    ∀ (data : List Nat) (i : Nat), findSub pat data = some i →
      pat.isPrefixOf (data.drop i) = true := by
  intro data
  induction data with
  | nil =>
    intro i hi
    cases hp : pat.isPrefixOf ([] : List Nat) with
    | true =>
      simp only [findSub, hp, if_true, Option.some.injEq] at hi
      subst hi
      simpa using hp
    | false => simp [findSub, hp, Bool.false_eq_true] at hi
  | cons d tl ih =>
    intro i hi
    cases hp : pat.isPrefixOf (d :: tl) with
    | true =>
      simp only [findSub, hp, if_true, Option.some.injEq] at hi
      subst hi
      simpa using hp
    | false =>
      simp only [findSub, hp, Bool.false_eq_true, if_false, Option.map_eq_some'] at hi
      obtain ⟨j, hj, rfl⟩ := hi
      simpa using ih j hj

/-- Before a hit of `findSub` there is no occurrence. -/
theorem findSub_some_first (pat : List Nat) :
    ∀ (data : List Nat) (i : Nat), findSub pat data = some i →
      ∀ j < i, pat.isPrefixOf (data.drop j) = false := by
  intro data
  induction data with
  | nil =>
    intro i hi j hj
    cases hp : pat.isPrefixOf ([] : List Nat) with
    | true =>
      simp only [findSub, hp, if_true, Option.some.injEq] at hi
      omega
    | false => simp [findSub, hp, Bool.false_eq_true] at hi
  | cons d tl ih =>
    intro i hi j hj
    cases hp : pat.isPrefixOf (d :: tl) with
    | true =>
      simp only [findSub, hp, if_true, Option.some.injEq] at hi
      omega
    | false =>
      simp only [findSub, hp, Bool.false_eq_true, if_false, Option.map_eq_some'] at hi
      obtain ⟨q, hq, rfl⟩ := hi
      match j with
      | 0 => simpa using hp
      | j + 1 => simpa using ih q hq j (by omega)

/-- A miss of `findSub` means no occurrence anywhere. -/
theorem findSub_none (pat : List Nat) :
    ∀ (data : List Nat), findSub pat data = none →
      ∀ j, pat.isPrefixOf (data.drop j) = false := by
  intro data
  induction data with
  | nil =>
    intro hi j
    cases hp : pat.isPrefixOf ([] : List Nat) with
    | true => simp [findSub, hp] at hi
    | false => simpa using hp
  | cons d tl ih =>
    intro hi j
    cases hp : pat.isPrefixOf (d :: tl) with
    | true => simp [findSub, hp] at hi
    | false =>
      simp only [findSub, hp, Bool.false_eq_true, if_false, Option.map_eq_none'] at hi
      match j with
      | 0 => simpa using hp
      | j + 1 => simpa using ih hi j

/-- A hit of a non-empty pattern lies fully inside the data. -/
theorem findSub_some_le_length (pat : List Nat) (hpat : pat ≠ []) :
    ∀ (data : List Nat) (i : Nat), findSub pat data = some i →
      i + pat.length ≤ data.length := by
  intro data
  induction data with
  | nil =>
    intro i hi
    cases hp : pat.isPrefixOf ([] : List Nat) with
    | true =>
      rw [List.isPrefixOf_iff_prefix] at hp
      have hle := hp.length_le
      simp only [List.length_nil, Nat.le_zero, List.length_eq_zero] at hle
      exact absurd hle hpat
    | false => simp [findSub, hp, Bool.false_eq_true] at hi
  | cons d tl ih =>
    intro i hi
    cases hp : pat.isPrefixOf (d :: tl) with
    | true =>
      simp only [findSub, hp, if_true, Option.some.injEq] at hi
      subst hi
      rw [List.isPrefixOf_iff_prefix] at hp
      simpa using hp.length_le
    | false =>
      simp only [findSub, hp, Bool.false_eq_true, if_false, Option.map_eq_some'] at hi
      obtain ⟨q, hq, rfl⟩ := hi
      have := ih q hq
      simp only [List.length_cons]
      omega

/-- Loop of `MemoryMapping.search`. Positions are region-relative: the source
keeps the absolute cursor `covered = start + pos` and reads
`readBytes(covered, requested)`, which is the slice of the region content at
`pos`; yields are mapped back to absolute addresses by the wrapper. Per
iteration the window is `min(buf_len, remaining)` bytes with
`buf_len = max(64 * 1024, len(bytestr))`; on a miss the cursor skips
`requested - len(bytestr) + 1`, on a hit it yields and skips
`match_offset + len(bytestr)`. `fuel` only bounds the recursion: every
iteration consumes at least one byte of `remaining` when the needle is
non-empty, so `remaining + 1` iterations are never reached (on an empty
needle the source loops forever; that case is not modelled). -/
def searchGo (data bstr : List Nat) : Nat → Nat → Nat → List Nat
  | 0, _, _ => []
  | fuel + 1, pos, remaining =>
    if remaining < bstr.length then []
    else
      let bufLen := max (64 * 1024) bstr.length
      let requested := min bufLen remaining
      let window := (data.drop pos).take requested
      if window.isEmpty then []
      else
        match findSub bstr window with
        | none =>
          searchGo data bstr fuel (pos + (requested - bstr.length + 1))
            (remaining - (requested - bstr.length + 1))
        | some off =>
          (pos + off) :: searchGo data bstr fuel (pos + (off + bstr.length))
            (remaining - (off + bstr.length))

/-- Mirror of `MemoryMapping.search(bytestr)`: the generator, collected into
the list of yielded absolute addresses. -/
def MemoryMapping.search (m : MemoryMapping) (bstr : List Nat) : List Nat :=
  (searchGo m.content bstr (m.len + 1) 0 m.len).map (fun p => m.start + p)

/-- Reference matcher for the amended claim C3: scan positions one by one
from `i`; at each occurrence of `pat`, report it and resume just past it
(greedy leftmost non-overlapping matching). `fuel` only bounds the
recursion; `data.length - i + 1` iterations are never reached for a
non-empty `pat`. -/
def greedyGo (data pat : List Nat) : Nat → Nat → List Nat
  | 0, _ => []
  | fuel + 1, i =>
    if data.length < i + pat.length then []
    else if pat.isPrefixOf (data.drop i) then
      i :: greedyGo data pat fuel (i + pat.length)
    else greedyGo data pat fuel (i + 1)

/-- All greedy leftmost non-overlapping occurrences of `pat` in `data`. -/
def greedyMatches (data pat : List Nat) : List Nat :=
  greedyGo data pat (data.length + 1) 0

/-- Occurrences inside a window at in-window offsets transfer to the backing
data. -/
theorem isPrefixOf_window (data pat : List Nat) (pos requested j : Nat)
    (hj : j + pat.length ≤ requested) :
    pat.isPrefixOf (((data.drop pos).take requested).drop j)
      = pat.isPrefixOf (data.drop (pos + j)) := by
  have h1 : ((data.drop pos).take requested).drop j
      = (data.drop (pos + j)).take (requested - j) := by
    rw [List.drop_take, List.drop_drop]
  rw [h1]
  by_cases hp : pat <+: data.drop (pos + j)
  · have h2 : pat <+: (data.drop (pos + j)).take (requested - j) :=
      List.prefix_take_iff.mpr ⟨hp, by omega⟩
    simp only [← List.isPrefixOf_iff_prefix] at hp h2
    rw [hp, h2]
  · have h2 : ¬ pat <+: (data.drop (pos + j)).take (requested - j) := by
      intro hc
      exact hp (List.prefix_take_iff.mp hc).1
    rw [← List.isPrefixOf_iff_prefix] at hp h2
    simp only [Bool.not_eq_true] at hp h2
    rw [hp, h2]

/-- The result of `greedyGo` does not depend on the fuel once the fuel
exceeds the number of positions left to scan. -/
theorem greedyGo_fuel_irrel (data pat : List Nat) (hL : pat ≠ []) :
    ∀ f1 i f2, data.length - i < f1 → data.length - i < f2 →
      greedyGo data pat f1 i = greedyGo data pat f2 i := by
  intro f1
  induction f1 with
  | zero => intro i f2 h1; omega
  | succ f1 ih =>
    intro i f2 h1 h2
    obtain ⟨g2, rfl⟩ : ∃ g, f2 = g + 1 := ⟨f2 - 1, by omega⟩
    have hL1 : 0 < pat.length := List.length_pos.mpr hL
    by_cases hstop : data.length < i + pat.length
    · simp [greedyGo, hstop]
    · cases hit : pat.isPrefixOf (data.drop i) with
      | true =>
        simp only [greedyGo, if_neg hstop, hit, if_true]
        congr 1
        exact ih (i + pat.length) g2 (by omega) (by omega)
      | false =>
        simp only [greedyGo, if_neg hstop, hit, Bool.false_eq_true, if_false]
        exact ih (i + 1) g2 (by omega) (by omega)

/-- `greedyGo` passes over a stretch of positions with no occurrence without
reporting anything. -/
theorem greedyGo_skip (data pat : List Nat) (hL : pat ≠ []) :
    ∀ c i, (∀ j < c, pat.isPrefixOf (data.drop (i + j)) = false) →
      greedyGo data pat (data.length - i + 1) i
        = greedyGo data pat (data.length - (i + c) + 1) (i + c) := by
  intro c
  induction c with
  | zero => intro i _; simp
  | succ c ih =>
    intro i hno
    have hL1 : 0 < pat.length := List.length_pos.mpr hL
    by_cases hstop : data.length < i + pat.length
    · have hstop2 : data.length < i + (c + 1) + pat.length := by omega
      simp [greedyGo, hstop, hstop2]
    · have hmiss : pat.isPrefixOf (data.drop i) = false := by
        have h0 := hno 0 (by omega)
        simpa using h0
      have hstep : greedyGo data pat (data.length - i + 1) i
          = greedyGo data pat (data.length - (i + 1) + 1) (i + 1) := by
        simp only [greedyGo, if_neg hstop, hmiss, Bool.false_eq_true, if_false]
        exact greedyGo_fuel_irrel data pat hL (data.length - i) (i + 1)
          (data.length - (i + 1) + 1) (by omega) (by omega)
      rw [hstep]
      have hrec := ih (i + 1) (fun j hj => by
        have h2 := hno (j + 1) (by omega)
        have h3 : i + (j + 1) = i + 1 + j := by omega
        rwa [h3] at h2)
      rw [hrec]
      have h4 : i + 1 + c = i + (c + 1) := by omega
      rw [h4]

/-- The windowed scan of `search` equals the greedy position-by-position
matcher: windows only batch the scan, and the two advance rules (hit and
miss) keep every position that could start a not-yet-overlapped occurrence. -/
theorem searchGo_eq_greedyGo (data bstr : List Nat) (hbs : bstr ≠ []) :
    ∀ fuel remaining pos, remaining < fuel → pos + remaining = data.length →
      searchGo data bstr fuel pos remaining
        = greedyGo data bstr (data.length - pos + 1) pos := by
  have hL1 : 0 < bstr.length := List.length_pos.mpr hbs
  intro fuel
  induction fuel with
  | zero => intro remaining pos h _; omega
  | succ fuel ih =>
    intro remaining pos hfuel hinv
    by_cases hrl : remaining < bstr.length
    · have hstop : data.length < pos + bstr.length := by omega
      simp [searchGo, hrl, greedyGo, hstop]
    · have hRL : bstr.length ≤ min (max (64 * 1024) bstr.length) remaining := by omega
      have hRrem : min (max (64 * 1024) bstr.length) remaining ≤ remaining := by omega
      have hwlen :
          ((data.drop pos).take (min (max (64 * 1024) bstr.length) remaining)).length
            = min (max (64 * 1024) bstr.length) remaining := by
        rw [List.length_take, List.length_drop]
        omega
      have hwne :
          ((data.drop pos).take (min (max (64 * 1024) bstr.length) remaining)).isEmpty
            = false := by
        have hlen :
            0 < ((data.drop pos).take (min (max (64 * 1024) bstr.length) remaining)).length := by
          rw [hwlen]; omega
        cases hw : (data.drop pos).take (min (max (64 * 1024) bstr.length) remaining) with
        | nil => exfalso; rw [hw] at hlen; simp at hlen
        | cons x xs => rfl
      cases hf : findSub bstr
          ((data.drop pos).take (min (max (64 * 1024) bstr.length) remaining)) with
      | none =>
        have hno : ∀ j < min (max (64 * 1024) bstr.length) remaining - bstr.length + 1,
            bstr.isPrefixOf (data.drop (pos + j)) = false := by
          intro j hj
          rw [← isPrefixOf_window data bstr pos
            (min (max (64 * 1024) bstr.length) remaining) j (by omega)]
          exact findSub_none bstr _ hf j
        have hrec := ih
          (remaining - (min (max (64 * 1024) bstr.length) remaining - bstr.length + 1))
          (pos + (min (max (64 * 1024) bstr.length) remaining - bstr.length + 1))
          (by omega) (by omega)
        simp only [searchGo, if_neg hrl, hwne, Bool.false_eq_true, if_false, hf]
        rw [hrec]
        exact (greedyGo_skip data bstr hbs _ pos hno).symm
      | some off =>
        have hoffpre := findSub_some_isPrefixOf bstr _ off hf
        have hofffirst := findSub_some_first bstr _ off hf
        have hofflen : off + bstr.length ≤ min (max (64 * 1024) bstr.length) remaining := by
          have h5 := findSub_some_le_length bstr hbs _ off hf
          rwa [hwlen] at h5
        have hoccur : bstr.isPrefixOf (data.drop (pos + off)) = true := by
          rw [← isPrefixOf_window data bstr pos
            (min (max (64 * 1024) bstr.length) remaining) off (by omega)]
          exact hoffpre
        have hno : ∀ j < off, bstr.isPrefixOf (data.drop (pos + j)) = false := by
          intro j hj
          rw [← isPrefixOf_window data bstr pos
            (min (max (64 * 1024) bstr.length) remaining) j (by omega)]
          exact hofffirst j hj
        have hstop2 : ¬ data.length < pos + off + bstr.length := by omega
        have hg1 : greedyGo data bstr (data.length - pos + 1) pos
            = greedyGo data bstr (data.length - (pos + off) + 1) (pos + off) :=
          greedyGo_skip data bstr hbs off pos hno
        have hg2 : greedyGo data bstr (data.length - (pos + off) + 1) (pos + off)
            = (pos + off) ::
                greedyGo data bstr (data.length - (pos + off)) (pos + off + bstr.length) := by
          simp only [greedyGo, if_neg hstop2, hoccur, if_true]
        have hg3 : greedyGo data bstr (data.length - (pos + off)) (pos + off + bstr.length)
            = greedyGo data bstr (data.length - (pos + off + bstr.length) + 1)
                (pos + off + bstr.length) :=
          greedyGo_fuel_irrel data bstr hbs _ _ _ (by omega) (by omega)
        have hrec := ih (remaining - (off + bstr.length)) (pos + (off + bstr.length))
          (by omega) (by omega)
        simp only [searchGo, if_neg hrl, hwne, Bool.false_eq_true, if_false, hf]
        rw [hrec, hg1, hg2, hg3]
        have h6 : pos + (off + bstr.length) = pos + off + bstr.length := by omega
        rw [h6]

/-- Claim C3 counterexample: in a region with content `[1, 1, 1]` the needle
`[1, 1]` occurs at offsets 0 and 1, but `search` yields only offset 0: after
a hit it advances by `match_offset + len(needle)`, so an occurrence that
overlaps the reported one is skipped; the claim promises every position at
which the needle occurs. -/
theorem search_misses_overlapping_occurrence_cex :
    MemoryMapping.search ⟨0, 3, 0, [1, 1, 1]⟩ [1, 1] = [0]
    ∧ ([1, 1] : List Nat).isPrefixOf (List.drop 1 [1, 1, 1]) = true
    ∧ (1 : Nat) ∉ MemoryMapping.search ⟨0, 3, 0, [1, 1, 1]⟩ [1, 1] := by
  refine ⟨by decide, by decide, by decide⟩

/-- Claim C3 (amended): for every region whose content fills it and every
non-empty needle, `search` lazily yields, in ascending order, exactly the
greedy leftmost non-overlapping occurrences of the needle — every occurrence
except those overlapping a previously yielded one — scanning in windows of
`max(64 KiB, len(needle))` bytes and advancing by `match_offset +
len(needle)` on a hit and by `window - len(needle) + 1` on a miss; in
particular, when the needle occurs at offsets 5 and `5 + len(needle)`, both
positions are yielded. -/
theorem search_eq_greedyMatches (m : MemoryMapping) (bstr : List Nat) (hbs : bstr ≠ [])
    (hlen : m.content.length = m.len) :
    MemoryMapping.search m bstr
      = (greedyMatches m.content bstr).map (fun p => m.start + p) := by
  unfold MemoryMapping.search greedyMatches
  congr 1
  have h := searchGo_eq_greedyGo m.content bstr hbs (m.len + 1) m.len 0 (by omega) (by omega)
  rw [h]
  congr 1

/-- Witness for claim C3 (amended): region `[0, 9)` with content
`[9,9,9,9,9,7,8,7,8]` and needle `[7,8]`, occurring at offsets 5 and 7 =
5 + len; `search` yields both. -/
theorem search_eq_greedyMatches_witness :
    ([7, 8] : List Nat) ≠ []
    ∧ (⟨0, 9, 0, [9, 9, 9, 9, 9, 7, 8, 7, 8]⟩ : MemoryMapping).content.length
        = MemoryMapping.len ⟨0, 9, 0, [9, 9, 9, 9, 9, 7, 8, 7, 8]⟩
    ∧ MemoryMapping.search ⟨0, 9, 0, [9, 9, 9, 9, 9, 7, 8, 7, 8]⟩ [7, 8]
        = (greedyMatches [9, 9, 9, 9, 9, 7, 8, 7, 8] [7, 8]).map
            (fun p => (⟨0, 9, 0, [9, 9, 9, 9, 9, 7, 8, 7, 8]⟩ : MemoryMapping).start + p)
    ∧ MemoryMapping.search ⟨0, 9, 0, [9, 9, 9, 9, 9, 7, 8, 7, 8]⟩ [7, 8] = [5, 7] :=
  ⟨by decide, by decide,
   search_eq_greedyMatches ⟨0, 9, 0, [9, 9, 9, 9, 9, 7, 8, 7, 8]⟩ [7, 8]
     (by decide) (by decide),
   by decide⟩

/-- A Python value flowing through `Win7HeapWalker.getUserAllocations`:
either a raw `_HEAP_VIRTUAL_ALLOC_ENTRY` structure instance (identified by
an opaque tag), as `_getVirtualAllocations` returns them, or an
`(address, size)` tuple as `_getChunks` and `_getFrontendChunks` return. -/
inductive PyVal where
  | block : Nat → PyVal
  | pair : Nat → Nat → PyVal
  deriving DecidableEq

/-- Comparison used by `sorted`: lexicographic on tuples. The heterogeneous
cases are arbitrary; they are unreachable because every run that reaches the
sort has an empty virtual-allocation list. -/
def pyLE : PyVal → PyVal → Bool
  | .block i, .block j => decide (i ≤ j)
  | .block _, .pair _ _ => true
  | .pair _ _, .block _ => false
  | .pair a s, .pair b t => decide (a < b) || (decide (a = b) && decide (s ≤ t))

/-- Insertion step of the sort. -/
def insertSorted (x : PyVal) : List PyVal → List PyVal
  | [] => [x]
  | y :: ys => if pyLE x y then x :: y :: ys else y :: insertSorted x ys

/-- Mirror of `sorted(...)`: a stable comparison sort. -/
def pySorted (l : List PyVal) : List PyVal :=
  l.foldr insertSorted []

/-- Mirror of `Win7HeapWalker._getVirtualAllocations`: the list comprehension
collects the raw blocks of the `VirtualAllocdBlocks` list, then the debug
loop evaluates `ctypes.addressof(block)` for each block — but `ctypes` is
never imported in `win7heapwalker.py`, so the first block raises a
NameError (the comment at the call site concedes the blocks should have
been `(vaddr, size)` pairs). -/
def Win7HeapWalker.getVirtualAllocations (vblocks : List Nat) :
    Except PyError (List PyVal) :=
  if vblocks.isEmpty then .ok [] else .error .nameErrorCtypes

/-- Mirror of `Win7HeapWalker.getUserAllocations`, abstracted over the
outputs of the three allocation sources (the heap-structure walks live in
`win7heap.py`, outside this core): memoized result `allocs`
(`self._allocs`), virtual-allocation blocks, segment chunks and front-end
chunks as `(address, size)` pairs. Concatenates the three lists, deduplicates
through `set`, and when the lengths differ evaluates
`log.warning(... % (lstlen, setlen))` — two names that are defined nowhere,
so that branch raises a NameError instead of warning; otherwise sorts and
memoizes. Returns the result paired with the new memo state. -/
def Win7HeapWalker.getUserAllocations (vblocks : List Nat)
    (chunks fth_chunks : List (Nat × Nat)) (allocs : Option (List PyVal)) :
    Except PyError (List PyVal × Option (List PyVal)) :=
  match allocs with
  | some a => .ok (a, some a)
  | none =>
    match Win7HeapWalker.getVirtualAllocations vblocks with
    | .error e => .error e
    | .ok vallocs =>
      let lst := vallocs ++ chunks.map (fun c => PyVal.pair c.1 c.2)
        ++ fth_chunks.map (fun c => PyVal.pair c.1 c.2)
      let myset := lst.dedup
      if lst.length ≠ myset.length then .error .nameErrorLstlen
      else
        let sortedAllocs := pySorted myset
        .ok (sortedAllocs, some sortedAllocs)

/-- Claim C1, evaluated at a failing input: a heap whose
`VirtualAllocdBlocks` list holds one block makes `getUserAllocations` raise
a NameError (`ctypes` is unbound in `win7heapwalker.py`, line 57) instead of
contributing an `(address, size)` pair, so the claimed
concatenate-deduplicate-sort-memoize walk never completes. -/
theorem getUserAllocations_valloc_raises :
    Win7HeapWalker.getUserAllocations [42] [] [] none = .error .nameErrorCtypes := by
  rfl

/-- Claim C8, evaluated at a failing input: when the three sources overlap —
here the same chunk `(0x1000, 64)` reported both as a segment chunk and as a
front-end chunk — the concatenation is longer than the deduplicated set, and
the diagnostic branch raises a NameError (`lstlen` and `setlen` are
undefined at `win7heapwalker.py` line 43) instead of emitting the warning
and returning the deduplicated sorted result. -/
theorem getUserAllocations_dup_warning_raises :
    Win7HeapWalker.getUserAllocations [] [(0x1000, 64)] [(0x1000, 64)] none
      = .error .nameErrorLstlen := by
  rfl

/-- Mirror of `haystack.mappings.file.LazyMmap` state after `__init__`: the
constructor measures the dump size by seeking, records the file NAME, and
closes the handle — the value keeps no descriptor. File names are abstract
`Nat` identifiers. -/
structure LazyMmap where
  size : Nat
  memdump_name : Nat
  deriving DecidableEq

/-- One file operation performed by a read; `readF n` is a `read(n)` call. -/
inductive FileOp where
  | openFile : Nat → FileOp
  | seek : Nat → FileOp
  | readF : Nat → FileOp
  | closeFile : FileOp
  deriving DecidableEq

/-- Mirror of `LazyMmap._get(offset, size)`: reopen the dump by name, seek
to `offset`, read `size` bytes, close. Returns the bytes together with the
file-operation trace of the call, against a file system mapping names to
contents. -/
def LazyMmap.getSlice (fs : Nat → List Nat) (lm : LazyMmap) (offset size : Nat) :
    List Nat × List FileOp :=
  (((fs lm.memdump_name).drop offset).take size,
   [.openFile lm.memdump_name, .seek offset, .readF size, .closeFile])

/-- Mirror of `haystack.mappings.file.FileBackedMemoryMapping`: metadata plus
the `LazyMmap` built from the per-region dump file. The `offset` field is the
mapping metadata `offset` (file offset recorded in the region descriptor). -/
structure FileBackedMemoryMapping where
  start : Nat
  end_ : Nat
  offset : Nat
  local_mmap : LazyMmap
  deriving DecidableEq

/-- Mirror of `FileBackedMemoryMapping.read_bytes`: `laddr = self._vtop(vaddr)
= vaddr - self.start` (ValueError when negative or past the region length),
then the slice `self._local_mmap[laddr:laddr + size]`, which is
`LazyMmap._get(laddr, size)`; the bytes are repacked unchanged. -/
def FileBackedMemoryMapping.read_bytes (fs : Nat → List Nat)
    (m : FileBackedMemoryMapping) (vaddr : Int) (size : Nat) :
    Except PyError (List Nat × List FileOp) :=
  let ret : Int := vaddr - (m.start : Int)
  if ret < 0 ∨ ret > ((m.end_ - m.start : Nat) : Int) then .error .valueError
  else .ok (LazyMmap.getSlice fs m.local_mmap ret.toNat size)

/-- Claim C7 counterexample: for the file-backed mapping
`[0x2000, 0x3000)` whose region descriptor records file offset `0x1000`, a
read of 4 bytes at `0x2010` seeks to the LOCAL offset `0x10` — the mapping
file-offset field is never added, contradicting the claimed seek position
`region_offset + local_offset = 0x1010`. -/
theorem read_bytes_seek_ignores_region_offset_cex :
    FileBackedMemoryMapping.read_bytes (fun _ => []) ⟨0x2000, 0x3000, 0x1000, ⟨0x1000, 3⟩⟩
        0x2010 4
      = .ok ([], [.openFile 3, .seek 0x10, .readF 4, .closeFile])
    ∧ (0x10 : Nat) ≠ 0x1000 + 0x10 := by
  refine ⟨by rfl, by decide⟩

/-- Claim C7 (amended): every in-bounds read of `size` bytes at `vaddr`
against a lazy file-backed mapping reopens the dump file by name, seeks to
the local offset `vaddr - start` (the backing file holds exactly the
region's content, starting at file position 0; the mapping's recorded file
offset is not consulted), reads `size` bytes, and closes the file before
returning; the trace is one balanced open/close pair per call and the
mapping state holds only the file name and length, so no live descriptor is
retained between calls. -/
theorem read_bytes_reopens_seeks_reads_closes (fs : Nat → List Nat)
    (m : FileBackedMemoryMapping) (vaddr : Int) (size : Nat)
    (h1 : (m.start : Int) ≤ vaddr)
    (h2 : vaddr - (m.start : Int) ≤ ((m.end_ - m.start : Nat) : Int)) :
    FileBackedMemoryMapping.read_bytes fs m vaddr size
      = .ok (((fs m.local_mmap.memdump_name).drop (vaddr - (m.start : Int)).toNat).take size,
             [.openFile m.local_mmap.memdump_name, .seek (vaddr - (m.start : Int)).toNat,
              .readF size, .closeFile]) := by
  unfold FileBackedMemoryMapping.read_bytes
  rw [if_neg]
  · rfl
  · push_neg
    omega

/-- Witness for claim C7 (amended): the mapping `[0x2000, 0x3000)` backed by
file 3 containing 32 bytes of 5, read at `0x2010` for 4 bytes. -/
theorem read_bytes_reopens_seeks_reads_closes_witness :
    FileBackedMemoryMapping.read_bytes (fun _ => List.replicate 32 5)
        ⟨0x2000, 0x3000, 0x1000, ⟨0x1000, 3⟩⟩ 0x2010 4
      = .ok (((List.replicate 32 5).drop ((0x2010 - (0x2000 : Int)).toNat)).take 4,
             [.openFile 3, .seek ((0x2010 - (0x2000 : Int)).toNat), .readF 4, .closeFile]) :=
  read_bytes_reopens_seeks_reads_closes (fun _ => List.replicate 32 5)
    ⟨0x2000, 0x3000, 0x1000, ⟨0x1000, 3⟩⟩ 0x2010 4 (by decide) (by decide)
